/-
  Verification of the 0/1 knapsack dynamic-programming solver
  (src/knapsack/solver.c).

  The C program stores N items as a flat N×3 int array
  (objs[i*3] = value, objs[i*3+1] = weight, objs[i*3+2] = selected flag)
  and the DP table as a flat (N+1)×(C+1) int array
  (vals[i*(c+1)+k] = optimal value for the first i items at capacity k).
  We embed the items as a list of records and the table as a flat list of
  naturals built by the same double loop, with `List.set` playing the role
  of the in-place array write.  Claims restrict attention to non-negative
  values and weights, so all quantities are `Nat`.
-/
import Mathlib

namespace Knapsack

/-- One item record: value, weight and the selected flag
    (objs[i*3], objs[i*3+1], objs[i*3+2] in the C code). -/
structure Item where
  value : Nat
  weight : Nat
  selected : Bool
  deriving Repr, DecidableEq

/-- Reading past the end of the item array is modelled by a zero record. -/
def defaultItem : Item := ⟨0, 0, false⟩

/-- objs[i*3]: value of the i-th (0-indexed) item. -/
def itemV (objs : List Item) (i : Nat) : Nat := (objs.getD i defaultItem).value

/-- objs[i*3+1]: weight of the i-th (0-indexed) item. -/
def itemW (objs : List Item) (i : Nat) : Nat := (objs.getD i defaultItem).weight

/-- objs[i*3+2] = 1: mark the i-th item as selected, leaving value and
    weight untouched (the backtrace's only write). -/
def setSel (objs : List Item) (i : Nat) : List Item :=
  objs.set i { objs.getD i defaultItem with selected := true }

/-- The mathematical content of the DP table cell vals[p*(c+1)+k]:
    dpVal objs p k is what the inner loop of dp_knapsack stores there,
    defined by the same recurrence the loop computes, including the
    `>=`-comparison that keeps the excluded branch on ties. -/
def dpVal (objs : List Item) : Nat → Nat → Nat
  | 0, _ => 0
  | i + 1, k =>
    if k < itemW objs i then dpVal objs i k
    else if dpVal objs i k ≥ dpVal objs i (k - itemW objs i) + itemV objs i then
      dpVal objs i k
    else dpVal objs i (k - itemW objs i) + itemV objs i

theorem dpVal_zero (objs : List Item) (k : Nat) : dpVal objs 0 k = 0 := rfl

/-- The step case of `dpVal` written with `max`, as in the spec's recurrence. -/
theorem dpVal_succ (objs : List Item) (i k : Nat) :
    dpVal objs (i + 1) k =
      if k < itemW objs i then dpVal objs i k
      else max (dpVal objs i k) (dpVal objs i (k - itemW objs i) + itemV objs i) := by
  show (if k < itemW objs i then dpVal objs i k
    else if dpVal objs i k ≥ dpVal objs i (k - itemW objs i) + itemV objs i then
      dpVal objs i k
    else dpVal objs i (k - itemW objs i) + itemV objs i) = _
  split
  · rfl
  · split <;> omega

/-- A DP cell changes from the row above exactly when including the new item
    strictly improves the optimum (and then the item fits). -/
theorem dpVal_ne_iff (objs : List Item) (i k : Nat) :
    dpVal objs (i + 1) k ≠ dpVal objs i k ↔
      itemW objs i ≤ k ∧
        dpVal objs i k < dpVal objs i (k - itemW objs i) + itemV objs i := by
  rw [dpVal_succ]
  rcases Nat.lt_or_ge k (itemW objs i) with hk | hk
  · rw [if_pos hk]
    omega
  · rw [if_neg (by omega)]
    omega

/-- When the cells differ, the new cell holds the include-branch value. -/
theorem dpVal_ne_eq (objs : List Item) (i k : Nat)
    (h : dpVal objs (i + 1) k ≠ dpVal objs i k) :
    dpVal objs (i + 1) k = dpVal objs i (k - itemW objs i) + itemV objs i := by
  rw [dpVal_succ] at h ⊢
  rcases Nat.lt_or_ge k (itemW objs i) with hk | hk
  · rw [if_pos hk] at h ⊢
    omega
  · rw [if_neg (by omega)] at h ⊢
    omega

/-- Adding capacity never decreases a DP cell. -/
theorem dpVal_mono_capacity (objs : List Item) (i : Nat) :
    ∀ k, dpVal objs i k ≤ dpVal objs i (k + 1) := by
  induction i with
  | zero => intro k; simp [dpVal_zero]
  | succ i ih =>
    intro k
    rw [dpVal_succ, dpVal_succ]
    rcases Nat.lt_or_ge k (itemW objs i) with hk | hk
    · rcases Nat.lt_or_ge (k + 1) (itemW objs i) with hk1 | hk1
      · simp only [if_pos hk, if_pos hk1]; exact ih k
      · have hw : itemW objs i = k + 1 := by omega
        simp only [if_pos hk, if_neg (by omega : ¬ k + 1 < itemW objs i)]
        exact le_trans (ih k) (le_max_left _ _)
    · have h1 : ¬ k < itemW objs i := by omega
      have h2 : ¬ k + 1 < itemW objs i := by omega
      simp only [if_neg h1, if_neg h2]
      have hsub : k + 1 - itemW objs i = (k - itemW objs i) + 1 := by omega
      rw [hsub]
      exact max_le_max (ih k) (Nat.add_le_add_right (ih _) _)

/-- `dpVal` is monotone in the capacity argument. -/
theorem dpVal_mono_capacity_le (objs : List Item) (i : Nat) {k k' : Nat}
    (h : k ≤ k') : dpVal objs i k ≤ dpVal objs i k' := by
  induction k' with
  | zero => have : k = 0 := by omega
            simp [this]
  | succ k' ih =>
    rcases Nat.lt_or_ge k (k' + 1) with h' | h'
    · exact le_trans (ih (by omega)) (dpVal_mono_capacity objs i k')
    · have : k = k' + 1 := by omega
      simp [this]

/-- Considering one more item never decreases a DP cell. -/
theorem dpVal_mono_items (objs : List Item) (i k : Nat) :
    dpVal objs i k ≤ dpVal objs (i + 1) k := by
  rw [dpVal_succ]
  split
  · exact le_refl _
  · exact le_max_left _ _

/-! ### Brute-force specification: the optimum over all 2^N subsets -/

/-- Total weight of a subset of items. -/
def weightSum (s : List Item) : Nat := (s.map Item.weight).sum

/-- Total value of a subset of items. -/
def valueSum (s : List Item) : Nat := (s.map Item.value).sum

/-- All 2^N subsets of an item sequence. -/
def subsets : List Item → List (List Item)
  | [] => [[]]
  | a :: l => subsets l ++ (subsets l).map (a :: ·)

/-- The brute-force optimum: the maximum total value over all subsets whose
    total weight is at most the capacity. -/
def maxSubsetVal (l : List Item) (c : Nat) : Nat :=
  (((subsets l).filter (fun s => weightSum s ≤ c)).map valueSum).foldr max 0

/-- Structural form of the knapsack optimum, peeling items from the front. -/
def bestVal : List Item → Nat → Nat
  | [], _ => 0
  | a :: l, k =>
    if k < a.weight then bestVal l k
    else max (bestVal l k) (bestVal l (k - a.weight) + a.value)

theorem bestVal_nil (k : Nat) : bestVal [] k = 0 := rfl

theorem bestVal_cons (a : Item) (l : List Item) (k : Nat) :
    bestVal (a :: l) k =
      if k < a.weight then bestVal l k
      else max (bestVal l k) (bestVal l (k - a.weight) + a.value) := rfl

theorem le_foldr_max {x : Nat} : ∀ {xs : List Nat}, x ∈ xs → x ≤ xs.foldr max 0 := by
  intro xs
  induction xs with
  | nil => intro h; cases h
  | cons y ys ih =>
    intro h
    rcases List.mem_cons.mp h with rfl | h
    · exact le_max_left _ _
    · exact le_trans (ih h) (le_max_right _ _)

theorem foldr_max_le {b : Nat} : ∀ {xs : List Nat}, (∀ x ∈ xs, x ≤ b) →
    xs.foldr max 0 ≤ b := by
  intro xs
  induction xs with
  | nil => intro _; exact Nat.zero_le _
  | cons y ys ih =>
    intro h
    simp only [List.foldr_cons]
    exact max_le (h y (List.mem_cons_self _ _)) (ih fun x hx => h x (List.mem_cons_of_mem _ hx))

theorem bestVal_mono_cons (a : Item) (l : List Item) (k : Nat) :
    bestVal l k ≤ bestVal (a :: l) k := by
  show bestVal l k ≤ if k < a.weight then bestVal l k else _
  split
  · exact le_refl _
  · exact le_max_left _ _

/-- Every feasible subset's value is bounded by `bestVal`. -/
theorem valueSum_le_bestVal : ∀ (l : List Item) (k : Nat), ∀ s ∈ subsets l,
    weightSum s ≤ k → valueSum s ≤ bestVal l k := by
  intro l
  induction l with
  | nil =>
    intro k s hs _
    rcases List.mem_singleton.mp hs with rfl
    exact Nat.le_refl _
  | cons a l ih =>
    intro k s hs hw
    rcases List.mem_append.mp hs with hs | hs
    · exact le_trans (ih k s hs hw) (bestVal_mono_cons a l k)
    · rcases List.mem_map.mp hs with ⟨t, ht, rfl⟩
      have hwt : a.weight + weightSum t ≤ k := by
        simpa [weightSum] using hw
      have hk : ¬ k < a.weight := by omega
      have hmem : weightSum t ≤ k - a.weight := by omega
      have := ih (k - a.weight) t ht hmem
      show valueSum (a :: t) ≤ bestVal (a :: l) k
      show valueSum (a :: t) ≤ if k < a.weight then bestVal l k else _
      rw [if_neg hk]
      have hv : valueSum (a :: t) = a.value + valueSum t := by
        simp [valueSum]
      rw [hv]
      exact le_trans (by omega) (le_max_right (bestVal l k) (bestVal l (k - a.weight) + a.value))

/-- `bestVal` is attained by some feasible subset. -/
theorem bestVal_attained : ∀ (l : List Item) (k : Nat),
    ∃ s ∈ subsets l, weightSum s ≤ k ∧ valueSum s = bestVal l k := by
  intro l
  induction l with
  | nil =>
    intro k
    exact ⟨[], List.mem_singleton.mpr rfl, Nat.zero_le _, rfl⟩
  | cons a l ih =>
    intro k
    show ∃ s ∈ subsets (a :: l), weightSum s ≤ k ∧
      valueSum s = if k < a.weight then bestVal l k else _
    rcases Nat.lt_or_ge k a.weight with hk | hk
    · rcases ih k with ⟨s, hs, hw, hv⟩
      exact ⟨s, List.mem_append_left _ hs, hw, by rw [if_pos hk]; exact hv⟩
    · rw [if_neg (by omega)]
      rcases le_or_lt (bestVal l (k - a.weight) + a.value) (bestVal l k) with hle | hlt
      · rcases ih k with ⟨s, hs, hw, hv⟩
        exact ⟨s, List.mem_append_left _ hs, hw, by rw [max_eq_left hle]; exact hv⟩
      · rcases ih (k - a.weight) with ⟨t, ht, hw, hv⟩
        refine ⟨a :: t, List.mem_append_right _ (List.mem_map.mpr ⟨t, ht, rfl⟩), ?_, ?_⟩
        · have hws : weightSum (a :: t) = a.weight + weightSum t := by
            simp [weightSum]
          omega
        · rw [max_eq_right (le_of_lt hlt)]
          have hvs : valueSum (a :: t) = a.value + valueSum t := by
            simp [valueSum]
          omega

/-- The structural optimum equals the brute-force subset maximum. -/
theorem bestVal_eq_maxSubsetVal (l : List Item) (c : Nat) :
    bestVal l c = maxSubsetVal l c := by
  apply le_antisymm
  · rcases bestVal_attained l c with ⟨s, hs, hw, hv⟩
    rw [← hv]
    apply le_foldr_max
    exact List.mem_map.mpr ⟨s, List.mem_filter.mpr ⟨hs, by simpa using hw⟩, rfl⟩
  · apply foldr_max_le
    intro x hx
    rcases List.mem_map.mp hx with ⟨s, hs, rfl⟩
    rcases List.mem_filter.mp hs with ⟨hmem, hw⟩
    exact valueSum_le_bestVal l c s hmem (by simpa using hw)

/-- Appending an item at the end of the sequence: what the DP step adds. -/
theorem bestVal_append_single (a : Item) : ∀ (l : List Item) (k : Nat),
    bestVal (l ++ [a]) k =
      if k < a.weight then bestVal l k
      else max (bestVal l k) (bestVal l (k - a.weight) + a.value) := by
  intro l
  induction l with
  | nil => intro k; rfl
  | cons b l ih =>
    intro k
    rw [List.cons_append, bestVal_cons b (l ++ [a]) k, ih k, ih (k - b.weight),
      bestVal_cons b l k, bestVal_cons b l (k - a.weight)]
    have e1 : k - a.weight - b.weight = k - b.weight - a.weight := by omega
    rw [e1]
    split_ifs <;> omega

/-- The DP cell value is the structural optimum of the item prefix. -/
theorem dpVal_eq_bestVal_take (objs : List Item) :
    ∀ p, p ≤ objs.length → ∀ k, dpVal objs p k = bestVal (objs.take p) k := by
  intro p
  induction p with
  | zero => intro _ k; simp [dpVal_zero, bestVal]
  | succ p ih =>
    intro hp k
    have hlt : p < objs.length := by omega
    have htake : objs.take (p + 1) = objs.take p ++ [objs.getD p defaultItem] := by
      rw [List.take_succ]
      congr 1
      rw [List.getD_eq_getElem?_getD, List.getElem?_eq_getElem hlt]
      rfl
    rw [htake, bestVal_append_single, dpVal_succ]
    rw [ih (by omega) k, ih (by omega) (k - itemW objs p)]
    rfl

/-- The top-right DP cell is the brute-force optimum. -/
theorem dpVal_length_eq_maxSubsetVal (objs : List Item) (c : Nat) :
    dpVal objs objs.length c = maxSubsetVal objs c := by
  rw [dpVal_eq_bestVal_take objs objs.length (le_refl _) c, List.take_length,
    bestVal_eq_maxSubsetVal]

/-! ### The flat table built by dp_knapsack's double loop

The C code lays the table out as a flat array of (n+1)*(c+1) ints with
cell (i, k) at offset i*(c+1)+k, zero-initialised by calloc, and fills
rows 1..n in order, each row left to right. -/

/-- The value the inner loop writes into vals[i*(c+1)+k]: the body of the
    loop in dp_knapsack, reading row i-1 of the current array. -/
def cellValue (objs : List Item) (c : Nat) (vals : List Nat) (i k : Nat) : Nat :=
  if k < itemW objs (i - 1) then vals.getD ((i - 1) * (c + 1) + k) 0
  else if vals.getD ((i - 1) * (c + 1) + k) 0 ≥
      vals.getD ((i - 1) * (c + 1) + (k - itemW objs (i - 1))) 0 + itemV objs (i - 1) then
    vals.getD ((i - 1) * (c + 1) + k) 0
  else vals.getD ((i - 1) * (c + 1) + (k - itemW objs (i - 1))) 0 + itemV objs (i - 1)

theorem cellValue_succ (objs : List Item) (c : Nat) (vals : List Nat) (i k : Nat) :
    cellValue objs c vals (i + 1) k =
      if k < itemW objs i then vals.getD (i * (c + 1) + k) 0
      else if vals.getD (i * (c + 1) + k) 0 ≥
          vals.getD (i * (c + 1) + (k - itemW objs i)) 0 + itemV objs i then
        vals.getD (i * (c + 1) + k) 0
      else vals.getD (i * (c + 1) + (k - itemW objs i)) 0 + itemV objs i := by
  simp [cellValue]

/-- The inner loop `for k`: starting at column k with rem columns left,
    write cells (i, k), (i, k+1), ... via List.set. -/
def fillRow (objs : List Item) (c i : Nat) : Nat → Nat → List Nat → List Nat
  | _, 0, vals => vals
  | k, rem + 1, vals =>
    fillRow objs c i (k + 1) rem (vals.set (i * (c + 1) + k) (cellValue objs c vals i k))

/-- The outer loop `for i`: fill rows i, i+1, ... with rem rows left. -/
def fillRows (objs : List Item) (c : Nat) : Nat → Nat → List Nat → List Nat
  | _, 0, vals => vals
  | i, rem + 1, vals => fillRows objs c (i + 1) rem (fillRow objs c i 0 (c + 1) vals)

/-- The complete flat DP table of dp_knapsack: calloc'd zeros, then the
    double loop for i in 1..n, k in 0..c. -/
def dpTable (objs : List Item) (n c : Nat) : List Nat :=
  fillRows objs c 1 n (List.replicate ((n + 1) * (c + 1)) 0)

/-- Flat offsets of distinct table cells are distinct. -/
theorem tableIdx_inj {c p q j k : Nat} (hj : j ≤ c) (hk : k ≤ c)
    (h : p * (c + 1) + j = q * (c + 1) + k) : p = q ∧ j = k := by
  have hpq : p = q := by
    rcases Nat.lt_trichotomy p q with hlt | heq | hgt
    · have h1 : (p + 1) * (c + 1) ≤ q * (c + 1) := Nat.mul_le_mul_right _ (by omega)
      rw [Nat.add_mul] at h1
      omega
    · exact heq
    · have h1 : (q + 1) * (c + 1) ≤ p * (c + 1) := Nat.mul_le_mul_right _ (by omega)
      rw [Nat.add_mul] at h1
      omega
  subst hpq
  omega

/-- An in-range cell offset is inside the allocated (n+1)*(c+1) buffer. -/
theorem tableIdx_lt {n c i k : Nat} (hi : i ≤ n) (hk : k ≤ c) :
    i * (c + 1) + k < (n + 1) * (c + 1) := by
  have h1 : i * (c + 1) ≤ n * (c + 1) := Nat.mul_le_mul_right _ hi
  have h2 : (n + 1) * (c + 1) = n * (c + 1) + (c + 1) := by rw [Nat.add_mul]; omega
  omega

/-- One pass of the inner loop: rows other than i are untouched, columns of
    row i before the start column are untouched, and columns from the start
    column on receive their dpVal, provided row i-1 already holds dpVal. -/
theorem fillRow_invariant (objs : List Item) (n c i : Nat) (hi1 : 1 ≤ i) (hin : i ≤ n) :
    ∀ rem k0 vals, k0 + rem = c + 1 → vals.length = (n + 1) * (c + 1) →
      (∀ j, j ≤ c → vals.getD ((i - 1) * (c + 1) + j) 0 = dpVal objs (i - 1) j) →
      (fillRow objs c i k0 rem vals).length = vals.length ∧
      (∀ p j, p ≠ i → j ≤ c →
        (fillRow objs c i k0 rem vals).getD (p * (c + 1) + j) 0 =
          vals.getD (p * (c + 1) + j) 0) ∧
      (∀ j, j ≤ c → k0 ≤ j →
        (fillRow objs c i k0 rem vals).getD (i * (c + 1) + j) 0 = dpVal objs i j) ∧
      (∀ j, j < k0 →
        (fillRow objs c i k0 rem vals).getD (i * (c + 1) + j) 0 =
          vals.getD (i * (c + 1) + j) 0) := by
  intro rem
  induction rem with
  | zero =>
    intro k0 vals hk0 _ _
    exact ⟨rfl, fun _ _ _ _ => rfl, fun j hj hk0j => by omega, fun _ _ => rfl⟩
  | succ rem ih =>
    intro k0 vals hk0 hlen hrow
    have hk0c : k0 ≤ c := by omega
    have hidx : i * (c + 1) + k0 < vals.length := by
      rw [hlen]; exact tableIdx_lt hin hk0c
    set vals' := vals.set (i * (c + 1) + k0) (cellValue objs c vals i k0) with hv'
    have hlen' : vals'.length = (n + 1) * (c + 1) := by
      rw [hv', List.length_set, hlen]
    have hget_ne : ∀ p j, j ≤ c → (p ≠ i ∨ j ≠ k0) →
        vals'.getD (p * (c + 1) + j) 0 = vals.getD (p * (c + 1) + j) 0 := by
      intro p j hj hne
      rw [hv']
      have hneidx : i * (c + 1) + k0 ≠ p * (c + 1) + j := by
        intro he
        rcases tableIdx_inj hk0c hj he with ⟨he1, he2⟩
        rcases hne with hne | hne
        · exact hne he1.symm
        · exact hne he2.symm
      simp [List.getD_eq_getElem?_getD, List.getElem?_set_ne hneidx]
    have hrow' : ∀ j, j ≤ c → vals'.getD ((i - 1) * (c + 1) + j) 0 = dpVal objs (i - 1) j := by
      intro j hj
      rw [hget_ne (i - 1) j hj (Or.inl (by omega))]
      exact hrow j hj
    have hcell : vals'.getD (i * (c + 1) + k0) 0 = dpVal objs i k0 := by
      rw [hv']
      rw [List.getD_eq_getElem?_getD, List.getElem?_set_self hidx]
      show cellValue objs c vals i k0 = dpVal objs i k0
      obtain ⟨i', rfl⟩ : ∃ i', i = i' + 1 := ⟨i - 1, by omega⟩
      have hrow0 : ∀ j, j ≤ c → vals.getD (i' * (c + 1) + j) 0 = dpVal objs i' j := by
        intro j hj
        have := hrow j hj
        simpa using this
      rw [cellValue_succ, dpVal_succ, hrow0 k0 hk0c,
        hrow0 (k0 - itemW objs i') (by omega)]
      split_ifs <;> omega
    rcases ih (k0 + 1) vals' (by omega) hlen' hrow' with ⟨ih1, ih2, ih3, ih4⟩
    refine ⟨?_, ?_, ?_, ?_⟩
    · show (fillRow objs c i (k0 + 1) rem vals').length = vals.length
      rw [ih1, hlen', hlen]
    · intro p j hp hj
      show (fillRow objs c i (k0 + 1) rem vals').getD _ 0 = _
      rw [ih2 p j hp hj, hget_ne p j hj (Or.inl hp)]
    · intro j hj hk0j
      show (fillRow objs c i (k0 + 1) rem vals').getD _ 0 = _
      rcases Nat.lt_or_ge j (k0 + 1) with hj1 | hj1
      · have hjk : j = k0 := by omega
        subst hjk
        rw [ih4 j (by omega)]
        exact hcell
      · exact ih3 j hj hj1
    · intro j hj
      show (fillRow objs c i (k0 + 1) rem vals').getD _ 0 = _
      rw [ih4 j (by omega), hget_ne i j (by omega) (Or.inr (by omega))]

/-- The outer loop: after filling rows i..n, every row below the frontier
    holds its dpVal values and the length is unchanged. -/
theorem fillRows_invariant (objs : List Item) (n c : Nat) :
    ∀ rem i vals, 1 ≤ i → i + rem = n + 1 → vals.length = (n + 1) * (c + 1) →
      (∀ p j, p < i → j ≤ c → vals.getD (p * (c + 1) + j) 0 = dpVal objs p j) →
      (fillRows objs c i rem vals).length = (n + 1) * (c + 1) ∧
      (∀ p j, p ≤ n → j ≤ c →
        (fillRows objs c i rem vals).getD (p * (c + 1) + j) 0 = dpVal objs p j) := by
  intro rem
  induction rem with
  | zero =>
    intro i vals hi1 hin hlen hrows
    exact ⟨hlen, fun p j hp hj => hrows p j (by omega) hj⟩
  | succ rem ih =>
    intro i vals hi1 hin hlen hrows
    have hin' : i ≤ n := by omega
    rcases fillRow_invariant objs n c i hi1 hin' (c + 1) 0 vals (by omega) hlen
        (fun j hj => hrows (i - 1) j (by omega) hj) with ⟨h1, h2, h3, _⟩
    show (fillRows objs c (i + 1) rem (fillRow objs c i 0 (c + 1) vals)).length = _ ∧ _
    apply ih (i + 1) _ (by omega) (by omega) (by rw [h1, hlen])
    intro p j hp hj
    rcases Nat.lt_or_ge p i with hpi | hpi
    · rw [h2 p j (by omega) hj]
      exact hrows p j hpi hj
    · have hpe : p = i := by omega
      subst hpe
      exact h3 j hj (Nat.zero_le _)

/-- Entry (p, k) of the flat table equals the recurrence value dpVal. -/
theorem dpTable_getD (objs : List Item) (n c : Nat) {p k : Nat}
    (hp : p ≤ n) (hk : k ≤ c) :
    (dpTable objs n c).getD (p * (c + 1) + k) 0 = dpVal objs p k := by
  have hrepl : ∀ idx, (List.replicate ((n + 1) * (c + 1)) (0 : Nat)).getD idx 0 = 0 := by
    intro idx
    rw [List.getD_eq_getElem?_getD, List.getElem?_replicate]
    split <;> rfl
  rcases fillRows_invariant objs n c n 1 (List.replicate ((n + 1) * (c + 1)) 0)
      (le_refl 1) (by omega) (by simp)
      (fun p j hp hj => by rw [hrepl]; interval_cases p; rfl) with ⟨_, h2⟩
  exact h2 p k hp hk

/-- The flat table keeps the allocated length (n+1)*(c+1). -/
theorem dpTable_length (objs : List Item) (n c : Nat) :
    (dpTable objs n c).length = (n + 1) * (c + 1) := by
  rcases fillRows_invariant objs n c n 1 (List.replicate ((n + 1) * (c + 1)) 0)
      (le_refl 1) (by omega) (by simp)
      (fun p j hp hj => by
        have : p = 0 := by omega
        subst this
        rw [List.getD_eq_getElem?_getD, List.getElem?_replicate]
        split <;> rfl) with ⟨h1, _⟩
  exact h1

/-! ### The backtrace (dp_backtrace) -/

/-- The loop of dp_backtrace: for i from n down to 1 (here counting the
    remaining iterations), compare vals[i*(c+1)+k] with vals[(i-1)*(c+1)+k];
    on a difference mark item i-1 selected and decrement the cursor by that
    item's weight (read back from the objs array, as the C code does).
    Returns the item array and the final cursor. -/
def dp_backtrace_go (c : Nat) (vals : List Nat) : Nat → Nat → List Item → List Item × Nat
  | 0, k, objs => (objs, k)
  | i + 1, k, objs =>
    if vals.getD ((i + 1) * (c + 1) + k) 0 ≠ vals.getD (i * (c + 1) + k) 0 then
      dp_backtrace_go c vals i (k - itemW (setSel objs i) i) (setSel objs i)
    else dp_backtrace_go c vals i k objs

/-- dp_backtrace(n, c, objs, vals): cursor starts at k = c. -/
def dp_backtrace (n c : Nat) (objs : List Item) (vals : List Nat) : List Item × Nat :=
  dp_backtrace_go c vals n c objs

/-- sum(value_i * selected_i) over the item array. -/
def selValue (objs : List Item) : Nat :=
  (objs.map (fun it => it.value * it.selected.toNat)).sum

/-- sum(weight_i * selected_i) over the item array. -/
def selWeight (objs : List Item) : Nat :=
  (objs.map (fun it => it.weight * it.selected.toNat)).sum

theorem length_setSel (objs : List Item) (i : Nat) :
    (setSel objs i).length = objs.length := List.length_set ..

theorem setSel_getD_ne (objs : List Item) {i j : Nat} (h : i ≠ j) :
    (setSel objs i).getD j defaultItem = objs.getD j defaultItem := by
  simp [setSel, List.getD_eq_getElem?_getD, List.getElem?_set_ne h]

theorem setSel_getD_self (objs : List Item) {i : Nat} (h : i < objs.length) :
    (setSel objs i).getD i defaultItem =
      { objs.getD i defaultItem with selected := true } := by
  simp [setSel, List.getD_eq_getElem?_getD, List.getElem?_set_self h]

theorem itemV_setSel (objs : List Item) (i j : Nat) :
    itemV (setSel objs i) j = itemV objs j := by
  unfold itemV
  rcases eq_or_ne i j with rfl | h
  · rcases Nat.lt_or_ge i objs.length with hl | hl
    · rw [setSel_getD_self objs hl]
    · unfold setSel
      rw [List.set_eq_of_length_le hl]
  · rw [setSel_getD_ne objs h]

theorem itemW_setSel (objs : List Item) (i j : Nat) :
    itemW (setSel objs i) j = itemW objs j := by
  unfold itemW
  rcases eq_or_ne i j with rfl | h
  · rcases Nat.lt_or_ge i objs.length with hl | hl
    · rw [setSel_getD_self objs hl]
    · unfold setSel
      rw [List.set_eq_of_length_le hl]
  · rw [setSel_getD_ne objs h]

/-- Marking an item selected does not change any DP value. -/
theorem dpVal_setSel (objs : List Item) (m : Nat) :
    ∀ p k, dpVal (setSel objs m) p k = dpVal objs p k := by
  intro p
  induction p with
  | zero => intro k; rfl
  | succ p ih =>
    intro k
    rw [dpVal_succ, dpVal_succ, itemW_setSel, itemV_setSel, ih k, ih (k - itemW objs p)]

/-- Splitting off the last element of a take of the selected-value sum. -/
theorem selValue_take_succ (objs : List Item) {i : Nat} (h : i < objs.length) :
    selValue (objs.take (i + 1)) =
      selValue (objs.take i) +
        (objs.getD i defaultItem).value * (objs.getD i defaultItem).selected.toNat := by
  unfold selValue
  rw [show objs.take (i + 1) = objs.take i ++ [objs.getD i defaultItem] by
      rw [List.take_succ, List.getD_eq_getElem?_getD, List.getElem?_eq_getElem h]; rfl,
    List.map_append, List.sum_append]
  simp

theorem selWeight_take_succ (objs : List Item) {i : Nat} (h : i < objs.length) :
    selWeight (objs.take (i + 1)) =
      selWeight (objs.take i) +
        (objs.getD i defaultItem).weight * (objs.getD i defaultItem).selected.toNat := by
  unfold selWeight
  rw [show objs.take (i + 1) = objs.take i ++ [objs.getD i defaultItem] by
      rw [List.take_succ, List.getD_eq_getElem?_getD, List.getElem?_eq_getElem h]; rfl,
    List.map_append, List.sum_append]
  simp

/-- Master invariant of the backtrace loop: starting at row i with cursor k
    on a table whose entries are the dpVal values of objs, the loop leaves
    lengths, values, weights and all records from position i on unchanged,
    and the items it marks among the first i positions form a subset of
    weight at most k whose value is exactly dpVal objs i k. -/
theorem backtrace_invariant (c : Nat) (vals : List Nat) (n : Nat) :
    ∀ i k objs, i ≤ n → k ≤ c → i ≤ objs.length →
      (∀ p j, p ≤ n → j ≤ c → vals.getD (p * (c + 1) + j) 0 = dpVal objs p j) →
      (∀ j, j < i → (objs.getD j defaultItem).selected = false) →
      (dp_backtrace_go c vals i k objs).1.length = objs.length ∧
      (∀ j, itemV (dp_backtrace_go c vals i k objs).1 j = itemV objs j ∧
        itemW (dp_backtrace_go c vals i k objs).1 j = itemW objs j) ∧
      (∀ j, i ≤ j → (dp_backtrace_go c vals i k objs).1.getD j defaultItem =
        objs.getD j defaultItem) ∧
      selWeight ((dp_backtrace_go c vals i k objs).1.take i) ≤ k ∧
      selValue ((dp_backtrace_go c vals i k objs).1.take i) = dpVal objs i k := by
  intro i
  induction i with
  | zero =>
    intro k objs _ _ _ _ _
    exact ⟨rfl, fun j => ⟨rfl, rfl⟩, fun j _ => rfl, Nat.zero_le _, rfl⟩
  | succ i ih =>
    intro k objs hin hkc hil hv hflags
    simp only [dp_backtrace_go, itemW_setSel,
      hv (i + 1) k hin hkc, hv i k (by omega) hkc]
    split_ifs with hne
    · have hwk : itemW objs i ≤ k := ((dpVal_ne_iff objs i k).mp hne).1
      have hval : dpVal objs (i + 1) k = dpVal objs i (k - itemW objs i) + itemV objs i :=
        dpVal_ne_eq objs i k hne
      have hilt : i < objs.length := by omega
      have hv' : ∀ p j, p ≤ n → j ≤ c →
          vals.getD (p * (c + 1) + j) 0 = dpVal (setSel objs i) p j := by
        intro p j hp hj
        rw [dpVal_setSel]
        exact hv p j hp hj
      have hflags' : ∀ j, j < i → ((setSel objs i).getD j defaultItem).selected = false := by
        intro j hj
        rw [setSel_getD_ne objs (by omega)]
        exact hflags j (by omega)
      rcases ih (k - itemW objs i) (setSel objs i) (by omega) (by omega)
          (by rw [length_setSel]; omega) hv' hflags' with ⟨L, VW, HI, SW, SV⟩
      have hlen_r : (dp_backtrace_go c vals i (k - itemW objs i) (setSel objs i)).1.length =
          objs.length := by rw [L, length_setSel]
      refine ⟨hlen_r, ?_, ?_, ?_, ?_⟩
      · intro j
        rcases VW j with ⟨hV, hW⟩
        rw [hV, hW, itemV_setSel, itemW_setSel]
        exact ⟨rfl, rfl⟩
      · intro j hj
        rw [HI j (by omega), setSel_getD_ne objs (by omega)]
      · rw [selWeight_take_succ _ (by omega), HI i (le_refl i), setSel_getD_self objs hilt]
        show _ + (objs.getD i defaultItem).weight * 1 ≤ k
        have : (objs.getD i defaultItem).weight = itemW objs i := rfl
        omega
      · rw [selValue_take_succ _ (by omega), HI i (le_refl i), setSel_getD_self objs hilt]
        show _ + (objs.getD i defaultItem).value * 1 = dpVal objs (i + 1) k
        have hVi : (objs.getD i defaultItem).value = itemV objs i := rfl
        rw [SV, dpVal_setSel]
        omega
    · have heq' : dpVal objs (i + 1) k = dpVal objs i k := Decidable.not_not.mp hne
      rcases ih k objs (by omega) hkc (by omega) hv
          (fun j hj => hflags j (by omega)) with ⟨L, VW, HI, SW, SV⟩
      refine ⟨L, VW, fun j hj => HI j (by omega), ?_, ?_⟩
      · rw [selWeight_take_succ _ (by omega), HI i (le_refl i), hflags i (by omega)]
        show _ + _ * 0 ≤ k
        omega
      · rw [selValue_take_succ _ (by omega), HI i (le_refl i), hflags i (by omega)]
        show _ + _ * 0 = dpVal objs (i + 1) k
        rw [heq']
        omega

/-! ### A bounds-checked backtrace

Same loop as dp_backtrace, but every table read uses the checked access
vals[idx]? and an inclusion is only recorded when the item's weight fits
under the cursor; any out-of-range access or cursor underflow yields none.
Showing it returns `some` of the unchecked result on a dp_knapsack table is
the safety claim. -/
def dp_backtrace_go_checked (c : Nat) (vals : List Nat) :
    Nat → Nat → List Item → Option (List Item × Nat)
  | 0, k, objs => some (objs, k)
  | i + 1, k, objs =>
    match vals[(i + 1) * (c + 1) + k]?, vals[i * (c + 1) + k]? with
    | some a, some b =>
      if a ≠ b then
        if itemW (setSel objs i) i ≤ k then
          dp_backtrace_go_checked c vals i (k - itemW (setSel objs i) i) (setSel objs i)
        else none
      else dp_backtrace_go_checked c vals i k objs
    | _, _ => none

/-- On a table holding the dpVal values in an allocated (n+1)*(c+1) buffer,
    the checked backtrace never fails and agrees with the unchecked one. -/
theorem checked_backtrace_eq_some (n c : Nat) (vals : List Nat)
    (hlen : vals.length = (n + 1) * (c + 1)) :
    ∀ i k objs, i ≤ n → k ≤ c →
      (∀ p j, p ≤ n → j ≤ c → vals.getD (p * (c + 1) + j) 0 = dpVal objs p j) →
      dp_backtrace_go_checked c vals i k objs = some (dp_backtrace_go c vals i k objs) := by
  intro i
  induction i with
  | zero => intro k objs _ _ _; rfl
  | succ i ih =>
    intro k objs hin hkc hv
    have hb1 : (i + 1) * (c + 1) + k < vals.length := by
      rw [hlen]; exact tableIdx_lt hin hkc
    have hb2 : i * (c + 1) + k < vals.length := by
      rw [hlen]; exact tableIdx_lt (by omega) hkc
    have e1 : vals[(i + 1) * (c + 1) + k]? = some (vals.getD ((i + 1) * (c + 1) + k) 0) := by
      rw [List.getElem?_eq_getElem hb1, List.getD_eq_getElem?_getD,
        List.getElem?_eq_getElem hb1]
      rfl
    have e2 : vals[i * (c + 1) + k]? = some (vals.getD (i * (c + 1) + k) 0) := by
      rw [List.getElem?_eq_getElem hb2, List.getD_eq_getElem?_getD,
        List.getElem?_eq_getElem hb2]
      rfl
    simp only [dp_backtrace_go_checked, dp_backtrace_go, e1, e2, itemW_setSel,
      hv (i + 1) k hin hkc, hv i k (by omega) hkc]
    split_ifs with hne hw
    · have hv' : ∀ p j, p ≤ n → j ≤ c →
          vals.getD (p * (c + 1) + j) 0 = dpVal (setSel objs i) p j := by
        intro p j hp hj
        rw [dpVal_setSel]
        exact hv p j hp hj
      exact ih (k - itemW objs i) (setSel objs i) (by omega) (by omega) hv'
    · exact absurd ((dpVal_ne_iff objs i k).mp hne).1 hw
    · exact ih k objs (by omega) hkc hv

/-! ### A write-logging backtrace (frame properties)

Identical control flow, but additionally records the index of every item
whose selected flag is written. -/
def dp_backtrace_go_log (c : Nat) (vals : List Nat) :
    Nat → Nat → List Item → List Item × Nat × List Nat
  | 0, k, objs => (objs, k, [])
  | i + 1, k, objs =>
    if vals.getD ((i + 1) * (c + 1) + k) 0 ≠ vals.getD (i * (c + 1) + k) 0 then
      let r := dp_backtrace_go_log c vals i (k - itemW (setSel objs i) i) (setSel objs i)
      (r.1, r.2.1, i :: r.2.2)
    else dp_backtrace_go_log c vals i k objs

/-- The log agrees with the plain backtrace, log entries are distinct item
    indices below the loop bound, and each item record in the result is its
    input record — with the selected flag forced to true exactly for the
    logged indices. -/
theorem log_backtrace_spec (c : Nat) (vals : List Nat) :
    ∀ i k objs os kk lg, dp_backtrace_go_log c vals i k objs = (os, kk, lg) →
      (os, kk) = dp_backtrace_go c vals i k objs ∧
      (∀ x ∈ lg, x < i) ∧ lg.Nodup ∧
      (∀ j, j < objs.length → os.getD j defaultItem =
        if j ∈ lg then
          ⟨(objs.getD j defaultItem).value, (objs.getD j defaultItem).weight, true⟩
        else objs.getD j defaultItem) := by
  intro i
  induction i with
  | zero =>
    intro k objs os kk lg heq
    simp only [dp_backtrace_go_log, Prod.mk.injEq] at heq
    obtain ⟨rfl, rfl, rfl⟩ := heq
    refine ⟨rfl, fun x hx => absurd hx (List.not_mem_nil x), List.nodup_nil, ?_⟩
    intro j _
    rw [if_neg (List.not_mem_nil j)]
  | succ i ih =>
    intro k objs os kk lg heq
    simp only [dp_backtrace_go_log] at heq
    by_cases hne : vals.getD ((i + 1) * (c + 1) + k) 0 ≠ vals.getD (i * (c + 1) + k) 0
    · rw [if_pos hne] at heq
      rcases hr : dp_backtrace_go_log c vals i (k - itemW (setSel objs i) i) (setSel objs i)
        with ⟨os', kk', lg'⟩
      rw [hr] at heq
      simp only [Prod.mk.injEq] at heq
      obtain ⟨rfl, rfl, rfl⟩ := heq
      rcases ih (k - itemW (setSel objs i) i) (setSel objs i) os' kk' lg' hr
        with ⟨hpair, hbound, hnd, hchar⟩
      refine ⟨?_, ?_, ?_, ?_⟩
      · show (os', kk') = dp_backtrace_go c vals (i + 1) k objs
        simp only [dp_backtrace_go]
        rw [if_pos hne]
        exact hpair
      · intro x hx
        rcases List.mem_cons.mp hx with rfl | hx
        · omega
        · have := hbound x hx
          omega
      · exact List.nodup_cons.mpr ⟨fun hmem => absurd (hbound i hmem) (by omega), hnd⟩
      · intro j hj
        have hj' : j < (setSel objs i).length := by rw [length_setSel]; exact hj
        rcases eq_or_ne j i with rfl | hji
        · have hnotmem : j ∉ lg' := fun hmem => absurd (hbound j hmem) (by omega)
          rw [hchar j hj', if_neg hnotmem, if_pos (List.mem_cons_self _ _),
            setSel_getD_self objs hj]
        · have hmemiff : j ∈ i :: lg' ↔ j ∈ lg' := by
            constructor
            · intro hmem
              rcases List.mem_cons.mp hmem with rfl | hmem
              · exact absurd rfl hji
              · exact hmem
            · exact List.mem_cons_of_mem i
          rw [hchar j hj', setSel_getD_ne objs (Ne.symm hji)]
          split_ifs with h1 h2 h3 <;> try rfl
          · exact absurd (hmemiff.mpr h1) h2
          · exact absurd (hmemiff.mp h3) h1
    · rw [if_neg hne] at heq
      rcases ih k objs os kk lg heq with ⟨hpair, hbound, hnd, hchar⟩
      refine ⟨?_, fun x hx => by have := hbound x hx; omega, hnd, hchar⟩
      show (os, kk) = dp_backtrace_go c vals (i + 1) k objs
      simp only [dp_backtrace_go]
      rw [if_neg hne]
      exact hpair

/-! ### dp_print, dp_knapsack and main -/

/-- dp_print(n, max, optimal, objs): the two output lines — the value line
    (max, optimal) and the per-item 0/1 selection line. -/
def dp_print (n maxv optimal : Nat) (objs : List Item) : (Nat × Nat) × List Bool :=
  ((maxv, optimal), (objs.take n).map Item.selected)

/-- dp_knapsack(n, c, objs): build the table, backtrace, and print
    vals[n*(c+1)+c] as the optimum with optimality flag 1.  Returns the
    mutated item array together with the printed output. -/
def dp_knapsack (n c : Nat) (objs : List Item) : List Item × ((Nat × Nat) × List Bool) :=
  let vals := dpTable objs n c
  let objs' := (dp_backtrace n c objs vals).1
  (objs', dp_print n (vals.getD (n * (c + 1) + c) 0) 1 objs')

/-- What a successfully opened input file provides: first line N and C,
    then the value/weight rows actually present in the file. -/
structure InputFile where
  count : Nat
  capacity : Nat
  rows : List (Nat × Nat)
  deriving Repr, DecidableEq

/-- The loader in main: calloc a zero-initialised N×3 array (so every
    selected flag starts at 0) and fill value/weight from the rows that
    can be read; missing rows leave the calloc zeros in place. -/
def loadObjs (f : InputFile) : List Item :=
  (List.range f.count).map fun i =>
    match f.rows[i]? with
    | some vw => ⟨vw.1, vw.2, false⟩
    | none => ⟨0, 0, false⟩

/-- The externally observable outcome of one invocation of main. -/
structure MainResult where
  exitCode : Int
  errorReported : Bool
  solverRan : Bool
  output : Option ((Nat × Nat) × List Bool)
  deriving Repr, DecidableEq

/-- main: with exactly one positional argument (argc = 2) open the named
    file — on failure perror and return -1; on success load the items, run
    dp_knapsack and print its output, returning 0.  With any other argc,
    main does nothing and falls off the end, returning 0. -/
def runMain (argc : Nat) (file : Option InputFile) : MainResult :=
  if argc = 2 then
    match file with
    | none =>
      { exitCode := -1, errorReported := true, solverRan := false, output := none }
    | some f =>
      { exitCode := 0, errorReported := false, solverRan := true,
        output := some (dp_knapsack f.count f.capacity (loadObjs f)).2 }
  else
    { exitCode := 0, errorReported := false, solverRan := false, output := none }

/-- There are 2^N subsets of an N-item sequence. -/
theorem subsets_length (l : List Item) : (subsets l).length = 2 ^ l.length := by
  induction l with
  | nil => rfl
  | cons a l ih =>
    simp only [subsets, List.length_append, List.length_map, ih, List.length_cons]
    ring

/-- `dpVal` at capacity 0 vanishes when every weight-0 item has value 0. -/
theorem dpVal_capacity_zero (objs : List Item)
    (h : ∀ it ∈ objs, it.weight = 0 → it.value = 0) :
    ∀ p, dpVal objs p 0 = 0 := by
  intro p
  induction p with
  | zero => rfl
  | succ p ih =>
    rw [dpVal_succ]
    rcases Nat.lt_or_ge 0 (itemW objs p) with hw | hw
    · rw [if_pos hw]
      exact ih
    · have hv0 : itemV objs p = 0 := by
        rcases Nat.lt_or_ge p objs.length with hl | hl
        · have hmem : objs.getD p defaultItem ∈ objs := by
            rw [List.getD_eq_getElem?_getD, List.getElem?_eq_getElem hl]
            exact List.getElem_mem hl
          have hwe : itemW objs p = (objs.getD p defaultItem).weight := rfl
          exact h _ hmem (by omega)
        · unfold itemV
          rw [List.getD_eq_getElem?_getD, List.getElem?_eq_none (by omega)]
          rfl
      rw [if_neg (by omega), Nat.zero_sub, ih, hv0]
      rfl

/-- Sample item sequence used to witness the hypotheses of the claims. -/
def smallItems : List Item := [⟨2, 1, false⟩, ⟨3, 2, false⟩]

/-! ### The claims -/

/-- C1: for every item sequence (non-negative values and weights) and every
    capacity C, the DP builder's cell vals[N*(C+1)+C] equals the maximum,
    over all 2^N subsets of the items, of the subset's total value among
    subsets of total weight at most C. -/
theorem claim_C1 (objs : List Item) (c : Nat) :
    (dpTable objs objs.length c).getD (objs.length * (c + 1) + c) 0 =
      maxSubsetVal objs c := by
  rw [dpTable_getD objs objs.length c (le_refl _) (le_refl _),
    dpVal_length_eq_maxSubsetVal]

/-- C2: the table built by dp_knapsack satisfies the recurrence: row 0 is
    all zeros; row p+1 copies row p where the item does not fit and takes
    the max of the exclude and include branches where it does. -/
theorem claim_C2 (objs : List Item) (c p k : Nat) (hp : p < objs.length) (hk : k ≤ c) :
    (dpTable objs objs.length c).getD (0 * (c + 1) + k) 0 = 0 ∧
    (dpTable objs objs.length c).getD ((p + 1) * (c + 1) + k) 0 =
      (if itemW objs p > k then (dpTable objs objs.length c).getD (p * (c + 1) + k) 0
       else max ((dpTable objs objs.length c).getD (p * (c + 1) + k) 0)
         ((dpTable objs objs.length c).getD (p * (c + 1) + (k - itemW objs p)) 0
           + itemV objs p)) := by
  constructor
  · rw [dpTable_getD objs objs.length c (Nat.zero_le _) hk]
    rfl
  · rw [dpTable_getD objs objs.length c (by omega) hk,
      dpTable_getD objs objs.length c (by omega) hk,
      dpTable_getD objs objs.length c (by omega) (show k - itemW objs p ≤ c by omega),
      dpVal_succ]

theorem claim_C2_witness :
    (1 : Nat) < smallItems.length ∧ (2 : Nat) ≤ 2 ∧
    ((dpTable smallItems smallItems.length 2).getD (0 * (2 + 1) + 2) 0 = 0 ∧
     (dpTable smallItems smallItems.length 2).getD ((1 + 1) * (2 + 1) + 2) 0 =
       (if itemW smallItems 1 > 2 then
          (dpTable smallItems smallItems.length 2).getD (1 * (2 + 1) + 2) 0
        else max ((dpTable smallItems smallItems.length 2).getD (1 * (2 + 1) + 2) 0)
          ((dpTable smallItems smallItems.length 2).getD
            (1 * (2 + 1) + (2 - itemW smallItems 1)) 0 + itemV smallItems 1))) :=
  ⟨by decide, by decide, claim_C2 smallItems 2 1 2 (by decide) (by decide)⟩

/-- C3: after dp_backtrace runs on the completed table (selected flags all
    initialized to 0 by calloc), the marked subset is feasible —
    sum(weight_i * selected_i) ≤ C — and achieves the optimum:
    sum(value_i * selected_i) = table[N][C]. -/
theorem claim_C3 (objs : List Item) (c : Nat)
    (hsel : ∀ it ∈ objs, it.selected = false) :
    selWeight (dp_backtrace objs.length c objs (dpTable objs objs.length c)).1 ≤ c ∧
    selValue (dp_backtrace objs.length c objs (dpTable objs objs.length c)).1 =
      (dpTable objs objs.length c).getD (objs.length * (c + 1) + c) 0 := by
  have hv : ∀ p j, p ≤ objs.length → j ≤ c →
      (dpTable objs objs.length c).getD (p * (c + 1) + j) 0 = dpVal objs p j :=
    fun p j hp hj => dpTable_getD objs objs.length c hp hj
  have hflags : ∀ j, j < objs.length → (objs.getD j defaultItem).selected = false := by
    intro j hj
    apply hsel
    rw [List.getD_eq_getElem?_getD, List.getElem?_eq_getElem hj]
    exact List.getElem_mem hj
  rcases backtrace_invariant c (dpTable objs objs.length c) objs.length objs.length c objs
      (le_refl _) (le_refl _) (le_refl _) hv hflags with ⟨L, _, _, SW, SV⟩
  have htake :=
    List.take_length (dp_backtrace_go c (dpTable objs objs.length c) objs.length c objs).1
  rw [L] at htake
  constructor
  · show selWeight
      (dp_backtrace_go c (dpTable objs objs.length c) objs.length c objs).1 ≤ c
    rw [← htake]
    exact SW
  · show selValue
      (dp_backtrace_go c (dpTable objs objs.length c) objs.length c objs).1 = _
    rw [← htake, SV, hv objs.length c (le_refl _) (le_refl _)]

theorem claim_C3_witness :
    (∀ it ∈ smallItems, it.selected = false) ∧
    (selWeight (dp_backtrace smallItems.length 2 smallItems
        (dpTable smallItems smallItems.length 2)).1 ≤ 2 ∧
     selValue (dp_backtrace smallItems.length 2 smallItems
        (dpTable smallItems smallItems.length 2)).1 =
       (dpTable smallItems smallItems.length 2).getD
         (smallItems.length * (2 + 1) + 2) 0) :=
  ⟨by decide, claim_C3 smallItems 2 (by decide)⟩

/-- C4: monotonicity of the table — more capacity (k to k+1) or more
    candidate items (p to p+1) never decreases a cell, at every valid
    index pair. -/
theorem claim_C4 (objs : List Item) (c p k : Nat) (hp : p ≤ objs.length) (hk : k ≤ c) :
    (k < c → (dpTable objs objs.length c).getD (p * (c + 1) + k) 0 ≤
      (dpTable objs objs.length c).getD (p * (c + 1) + (k + 1)) 0) ∧
    (p < objs.length → (dpTable objs objs.length c).getD (p * (c + 1) + k) 0 ≤
      (dpTable objs objs.length c).getD ((p + 1) * (c + 1) + k) 0) := by
  constructor
  · intro hkc
    rw [dpTable_getD objs objs.length c hp hk,
      dpTable_getD objs objs.length c hp (by omega)]
    exact dpVal_mono_capacity objs p k
  · intro hpl
    rw [dpTable_getD objs objs.length c hp hk,
      dpTable_getD objs objs.length c (by omega) hk]
    exact dpVal_mono_items objs p k

theorem claim_C4_witness :
    (1 : Nat) ≤ smallItems.length ∧ (1 : Nat) ≤ 2 ∧
    ((1 < 2 → (dpTable smallItems smallItems.length 2).getD (1 * (2 + 1) + 1) 0 ≤
        (dpTable smallItems smallItems.length 2).getD (1 * (2 + 1) + (1 + 1)) 0) ∧
     (1 < smallItems.length →
        (dpTable smallItems smallItems.length 2).getD (1 * (2 + 1) + 1) 0 ≤
        (dpTable smallItems smallItems.length 2).getD ((1 + 1) * (2 + 1) + 1) 0)) :=
  ⟨by decide, by decide, claim_C4 smallItems 2 1 1 (by decide) (by decide)⟩

/-- C5: tie-break — a cell differs from the cell above exactly when the
    item fits and including it strictly increases the optimum (so the
    backtrace marks an item only on a strict improvement); on an exact tie
    the cell keeps the excluded-branch value table[p][k]. -/
theorem claim_C5 (objs : List Item) (c p k : Nat) (hp : p < objs.length) (hk : k ≤ c) :
    ((dpTable objs objs.length c).getD ((p + 1) * (c + 1) + k) 0 ≠
        (dpTable objs objs.length c).getD (p * (c + 1) + k) 0 ↔
      itemW objs p ≤ k ∧
        (dpTable objs objs.length c).getD (p * (c + 1) + k) 0 <
          (dpTable objs objs.length c).getD (p * (c + 1) + (k - itemW objs p)) 0
            + itemV objs p) ∧
    ((dpTable objs objs.length c).getD (p * (c + 1) + k) 0 =
        (dpTable objs objs.length c).getD (p * (c + 1) + (k - itemW objs p)) 0
          + itemV objs p →
      (dpTable objs objs.length c).getD ((p + 1) * (c + 1) + k) 0 =
        (dpTable objs objs.length c).getD (p * (c + 1) + k) 0) := by
  rw [dpTable_getD objs objs.length c (by omega) hk,
    dpTable_getD objs objs.length c (by omega) hk,
    dpTable_getD objs objs.length c (by omega) (show k - itemW objs p ≤ c by omega)]
  constructor
  · exact dpVal_ne_iff objs p k
  · intro htie
    rw [dpVal_succ]
    split_ifs
    · rfl
    · omega

theorem claim_C5_witness :
    (1 : Nat) < smallItems.length ∧ (2 : Nat) ≤ 2 ∧
    (((dpTable smallItems smallItems.length 2).getD ((1 + 1) * (2 + 1) + 2) 0 ≠
        (dpTable smallItems smallItems.length 2).getD (1 * (2 + 1) + 2) 0 ↔
      itemW smallItems 1 ≤ 2 ∧
        (dpTable smallItems smallItems.length 2).getD (1 * (2 + 1) + 2) 0 <
          (dpTable smallItems smallItems.length 2).getD
            (1 * (2 + 1) + (2 - itemW smallItems 1)) 0 + itemV smallItems 1) ∧
    ((dpTable smallItems smallItems.length 2).getD (1 * (2 + 1) + 2) 0 =
        (dpTable smallItems smallItems.length 2).getD
          (1 * (2 + 1) + (2 - itemW smallItems 1)) 0 + itemV smallItems 1 →
      (dpTable smallItems smallItems.length 2).getD ((1 + 1) * (2 + 1) + 2) 0 =
        (dpTable smallItems smallItems.length 2).getD (1 * (2 + 1) + 2) 0)) :=
  ⟨by decide, by decide, claim_C5 smallItems 2 1 2 (by decide) (by decide)⟩

/-- C6: on a table built by dp_knapsack, the backtrace's cursor never goes
    out of range: the bounds-checked backtrace — which fails on any
    out-of-range table access or on an inclusion whose item weight exceeds
    the cursor — succeeds and returns exactly the unchecked result. -/
theorem claim_C6 (objs : List Item) (c : Nat) :
    dp_backtrace_go_checked c (dpTable objs objs.length c) objs.length c objs =
      some (dp_backtrace objs.length c objs (dpTable objs objs.length c)) :=
  checked_backtrace_eq_some objs.length c (dpTable objs objs.length c)
    (dpTable_length objs objs.length c) objs.length c objs (le_refl _) (le_refl _)
    (fun _ _ hp hj => dpTable_getD objs objs.length c hp hj)

/-- C7 (counterexample): with a single weight-0, value-1 item and C = 0,
    the DP builder's cell table[1][0] is 1, not 0, refuting "C = 0 produces
    a table of all zeros" for arbitrary item sequences. -/
theorem claim_C7_counterexample :
    ¬ ((dpTable [⟨1, 0, false⟩] 1 0).getD (1 * (0 + 1) + 0) 0 = 0) := by
  decide

/-- C7 (amended): with C = 0 every table entry is zero provided every
    weight-0 item has value 0 (in particular when all weights are
    positive); and with N = 0 (no items) every entry of the table is zero
    for every capacity. -/
theorem claim_C7_amended (objs : List Item) (c p idx : Nat)
    (h : ∀ it ∈ objs, it.weight = 0 → it.value = 0) (hp : p ≤ objs.length) :
    (dpTable objs objs.length 0).getD (p * (0 + 1) + 0) 0 = 0 ∧
    (dpTable [] 0 c).getD idx 0 = 0 := by
  constructor
  · rw [dpTable_getD objs objs.length 0 hp (le_refl 0)]
    exact dpVal_capacity_zero objs h p
  · show (List.replicate ((0 + 1) * (c + 1)) 0).getD idx 0 = 0
    rw [List.getD_eq_getElem?_getD, List.getElem?_replicate]
    split <;> rfl

theorem claim_C7_amended_witness :
    (∀ it ∈ smallItems, it.weight = 0 → it.value = 0) ∧ (2 : Nat) ≤ smallItems.length ∧
    ((dpTable smallItems smallItems.length 0).getD (2 * (0 + 1) + 0) 0 = 0 ∧
     (dpTable [] 0 5).getD 3 0 = 0) :=
  ⟨by decide, by decide, claim_C7_amended smallItems 5 2 3 (by decide) (by decide)⟩

/-- C8: invoked with exactly one positional argument naming an input source
    that cannot be opened, main reports the error and terminates with a
    non-zero exit outcome, without running the solver or producing any
    solution output. -/
theorem claim_C8 :
    (runMain 2 none).exitCode ≠ 0 ∧ (runMain 2 none).errorReported = true ∧
    (runMain 2 none).solverRan = false ∧ (runMain 2 none).output = none := by
  refine ⟨by decide, rfl, rfl, rfl⟩

/-- C9: dp_backtrace mutates only selected flags — it writes each flag at
    most once (the write log has no duplicates), only to 1, only at indices
    below n, and every item record either keeps exactly its input value,
    weight and flag or differs only in its flag being forced to true. -/
theorem claim_C9 (n c : Nat) (objs : List Item) (vals : List Nat)
    (os : List Item) (kk : Nat) (lg : List Nat)
    (heq : dp_backtrace_go_log c vals n c objs = (os, kk, lg)) :
    (os, kk) = dp_backtrace n c objs vals ∧
    lg.Nodup ∧ (∀ x ∈ lg, x < n) ∧
    (∀ j, j < objs.length → os.getD j defaultItem =
      if j ∈ lg then
        ⟨(objs.getD j defaultItem).value, (objs.getD j defaultItem).weight, true⟩
      else objs.getD j defaultItem) := by
  rcases log_backtrace_spec c vals n c objs os kk lg heq with ⟨h1, h2, h3, h4⟩
  exact ⟨h1, h3, h2, h4⟩

theorem claim_C9_witness :
    dp_backtrace_go_log 2 (dpTable smallItems 2 2) 2 2 smallItems =
      ([⟨2, 1, false⟩, ⟨3, 2, true⟩], 0, [1]) ∧
    ((([⟨2, 1, false⟩, ⟨3, 2, true⟩] : List Item), (0 : Nat)) =
        dp_backtrace 2 2 smallItems (dpTable smallItems 2 2) ∧
      ([1] : List Nat).Nodup ∧ (∀ x ∈ ([1] : List Nat), x < 2) ∧
      (∀ j, j < smallItems.length →
        ([⟨2, 1, false⟩, ⟨3, 2, true⟩] : List Item).getD j defaultItem =
          if j ∈ ([1] : List Nat) then
            ⟨(smallItems.getD j defaultItem).value,
              (smallItems.getD j defaultItem).weight, true⟩
          else smallItems.getD j defaultItem)) :=
  ⟨by decide, claim_C9 2 2 smallItems (dpTable smallItems 2 2)
    [⟨2, 1, false⟩, ⟨3, 2, true⟩] 0 [1] (by decide)⟩

/-- C10: with any argument count other than exactly one positional
    argument (argc ≠ 2), main reads nothing, solves nothing, prints
    nothing, reports no error and exits with status 0. -/
theorem claim_C10 (argc : Nat) (file : Option InputFile) (h : argc ≠ 2) :
    runMain argc file = ⟨0, false, false, none⟩ := by
  unfold runMain
  rw [if_neg h]

theorem claim_C10_witness :
    (3 : Nat) ≠ 2 ∧ runMain 3 none = ⟨0, false, false, none⟩ :=
  ⟨by decide, claim_C10 3 none (by decide)⟩

end Knapsack
